import Mathlib

/-!
Shallow embedding of `repository.go` (package main): a CLI tool that
registers a repository name by materializing a template directory
(`instance`), inserting a link into the `<ul>` of `index.html` (`index`),
inserting a bullet into the list in `README.md` (`readme`), and adding the
name to the JSON array `repository.json` (`record`), then a driver `main`
running the four steps in order.

Machine strings are Go strings compared bytewise; for valid UTF-8 the
bytewise order coincides with the codepoint-lexicographic order, which is
the order of Lean's `String` `LinearOrder` instance, so Go `<`/`>=` on
names is modelled by Lean `<`/`≤` on `String`.

Fallible steps (file reads, JSON decode, render, write) are modelled by
`Except`-valued oracles; Go nil-pointer panics and out-of-range slice
indexing are modelled by `Option` (`none` = crash). Mutation of the
in-memory document is modelled functionally; `os.WriteFile` is modelled as
an all-or-nothing write event.
-/

namespace Repo


/-- The node types of `golang.org/x/net/html.Node` that the program can
encounter. -/
inductive HtmlNodeType where
  | errorNode
  | textNode
  | documentNode
  | elementNode
  | commentNode
  | doctypeNode
deriving DecidableEq

/-- The type `golang.org/x/net/html.Node`, with the sibling chain of a parent
represented as the parent's `children` list (so `FirstChild` is
`children.head?` and `NextSibling` walks down the list). -/
inductive HtmlNode where
  | mk (type : HtmlNodeType) (data : String)
      (attr : List (String × String)) (children : List HtmlNode)

def HtmlNode.type : HtmlNode → HtmlNodeType
  | .mk t _ _ _ => t

def HtmlNode.data : HtmlNode → String
  | .mk _ d _ _ => d

def HtmlNode.attr : HtmlNode → List (String × String)
  | .mk _ _ a _ => a

def HtmlNode.children : HtmlNode → List HtmlNode
  | .mk _ _ _ c => c

/-- The inner sibling scan of the element-path search in `index`
(repository.go lines 84-92): walk the children, return the first child
that is an element node with the wanted tag name. -/
def findChild (tag : String) : List HtmlNode → Option HtmlNode
  | [] => none
  | c :: rest =>
    if c.type = HtmlNodeType.elementNode ∧ c.data = tag then some c
    else findChild tag rest

/-- State of the outer `for len(elementPathParts) > 0` loop in `index`
(repository.go lines 81-93): the remaining path parts and the current
element. -/
structure SearchState where
  parts : List String
  element : HtmlNode

/-- One iteration of the outer search loop: if the loop guard holds and the
inner scan finds a matching child, descend and drop the path part;
if the inner scan fails, the iteration changes nothing (and the Go loop
spins forever). -/
def searchStep (s : SearchState) : SearchState :=
  match s.parts with
  | [] => s
  | tag :: rest =>
    match findChild tag s.element.children with
    | some c => ⟨rest, c⟩
    | none => s

/-- Runs `n` iterations of the search loop. -/
def iterateSearch : Nat → SearchState → SearchState
  | 0, s => s
  | n + 1, s => iterateSearch n (searchStep s)

/-- The search loop never exits: its guard `len(elementPathParts) > 0`
still holds after every number of iterations. -/
def searchDiverges (s : SearchState) : Prop :=
  ∀ n : Nat, (iterateSearch n s).parts ≠ []

/-- Structural-recursive description of a successful search: descend
through `findChild` once per path part. `index` starts this at the parsed
document with path `["html", "body", "div", "ul"]`. -/
def pathFind : List String → HtmlNode → Option HtmlNode
  | [], el => some el
  | tag :: rest, el =>
    match findChild tag el.children with
    | some c => pathFind rest c
    | none => none

/-- Outcome of one document-updater invocation that did not fail: either
the duplicate was found and the document is left untouched (the Go
functions `return nil` before writing), or the mutated document is written
back. -/
inductive UpdResult (α : Type) where
  | skip
  | write (a : α)

/-- The document content after an update outcome, given the previous
content. -/
def applyUpd {α : Type} : UpdResult α → α → α
  | .skip, a => a
  | .write b, _ => b

def UpdResult.isWrite {α : Type} : UpdResult α → Bool
  | .skip => false
  | .write _ => true

/-- Map over the `write` payload (used when the Go loop advances past a
sibling: the already-passed sibling is kept in front of whatever the rest
of the scan produces). -/
def mapWrite {α : Type} (f : α → α) : UpdResult α → UpdResult α
  | .skip => .skip
  | .write a => .write (f a)

/-- The key access `child.FirstChild.FirstChild.Data` (repository.go lines 122/128):
`none` models the nil-pointer panic when either `FirstChild` is nil. -/
def liChildKey (c : HtmlNode) : Option String :=
  match c.children.head? with
  | none => none
  | some a =>
    match a.children.head? with
    | none => none
    | some t => some t.data

/-- The two nodes `index` creates (repository.go lines 96-117): the
`<li><a href="/NAME">NAME</a></li>` entry and the indentation text node
inserted alongside it. -/
def newChildren (name : String) : List HtmlNode :=
  [ HtmlNode.mk .elementNode "li" []
      [ HtmlNode.mk .elementNode "a" [("href", "/" ++ name)]
          [ HtmlNode.mk .textNode name [] [] ] ],
    HtmlNode.mk .textNode "\n            " [] [] ]

/-- The insertion scan of `index` (repository.go lines 120-139) over the
`<ul>`'s child list: find the first element child whose anchor text is
`≥ name`; if it equals `name`, skip (no write); otherwise insert the new
nodes before it; if no such child, append them at the end. `none` models
the nil-pointer panic of `child.FirstChild.FirstChild` on a malformed
element child. -/
def insertLoop (name : String) (newNodes : List HtmlNode) :
    List HtmlNode → Option (UpdResult (List HtmlNode))
  | [] => some (.write newNodes)
  | c :: rest =>
    if c.type = HtmlNodeType.elementNode then
      match liChildKey c with
      | none => none
      | some k =>
        if name ≤ k then
          if k = name then some .skip
          else some (.write (newNodes ++ c :: rest))
        else (insertLoop name newNodes rest).map (mapWrite (c :: ·))
    else (insertLoop name newNodes rest).map (mapWrite (c :: ·))

/-- The `<ul>` child list after one `index` invocation: `none` models a
crash. -/
def indexStep (name : String) (l : List HtmlNode) : Option (List HtmlNode) :=
  (insertLoop name (newChildren name) l).map (applyUpd · l)

/-- The anchor-text keys of the element children, in order (text/comment
children carry no key). -/
def keysHtml (l : List HtmlNode) : List String :=
  l.filterMap fun c =>
    if c.type = HtmlNodeType.elementNode then liChildKey c else none

/-- Every element child has a dereferenceable `FirstChild.FirstChild`
(no nil-pointer panic during the scan). -/
def wfH (l : List HtmlNode) : Bool :=
  l.all fun c => c.type != HtmlNodeType.elementNode || (liChildKey c).isSome

/-! ### Markdown: `readme` (repository.go lines 150-212)

`gomarkdown/markdown/ast` nodes: every node is either a container (with
children) or a leaf (with literal bytes); list items carry `ListFlags`.
`AsContainer`/`AsLeaf` return nil on the wrong kind, and dereferencing
that nil (or indexing `Children` out of range) panics — modelled by
`Option`. -/

inductive MdNode where
  | mk (container : Bool) (children : List MdNode) (literal : String)
      (listFlags : Nat)

def MdNode.container : MdNode → Bool
  | .mk c _ _ _ => c

def MdNode.children : MdNode → List MdNode
  | .mk _ ch _ _ => ch

def MdNode.literal : MdNode → String
  | .mk _ _ l _ => l

def MdNode.listFlags : MdNode → Nat
  | .mk _ _ _ f => f

/-- Models `ast.Node.AsContainer` followed by `.Children`: nil for a leaf. -/
def MdNode.asContainer (n : MdNode) : Option (List MdNode) :=
  if n.container then some n.children else none

/-- Models `ast.Node.AsLeaf` followed by `.Literal`: nil for a container. -/
def MdNode.asLeaf (n : MdNode) : Option String :=
  if n.container then none else some n.literal

/-- The flag `ast.ListItemBeginningOfList` (bit 4 of `ListType`). -/
def listItemBeginningOfList : Nat := 16

/-- The flag `ast.ListItemEndOfList` (bit 5 of `ListType`). -/
def listItemEndOfList : Nat := 32

/-- The key extraction of the `readme` scan (repository.go lines 174-178):
`listItem := entry.AsContainer().Children[0]`,
`link := listItem.AsContainer().Children[1]`,
`linkText := link.AsContainer().Children[0]`,
`content := string(linkText.AsLeaf().Literal)`;
`none` models the panic on a nil `AsContainer`/`AsLeaf` or an
out-of-range index. -/
def keyOfEntry (entry : MdNode) : Option String :=
  match entry.asContainer with
  | none => none
  | some entryChildren =>
    match entryChildren[0]? with
    | none => none
    | some listItem =>
      match listItem.asContainer with
      | none => none
      | some itemChildren =>
        match itemChildren[1]? with
        | none => none
        | some link =>
          match link.asContainer with
          | none => none
          | some linkChildren =>
            match linkChildren[0]? with
            | none => none
            | some linkText => linkText.asLeaf

/-- The list item obtained by parsing `- [NAME](/NAME)\n` and taking
`Children[0].Children[0]` of the parse tree (repository.go lines 160-165):
a ListItem whose paragraph holds an empty leading text node and the link
`[NAME](/NAME)` whose first child is the text node `NAME`. Its
`ListFlags` field is the given value (the code zeroes it at line 165 and
later assigns the boundary markers). -/
def newListItem (name : String) (flags : Nat) : MdNode :=
  MdNode.mk true
    [ MdNode.mk true
        [ MdNode.mk false [] "" 0,
          MdNode.mk true [MdNode.mk false [] name 0] "" 0 ]
        "" 0 ]
    "" flags

/-- The assignment `entry.(*ast.ListItem).ListFlags = f`. -/
def setFlagsTo (e : MdNode) (f : Nat) : MdNode :=
  match e with
  | .mk c ch l _ => .mk c ch l f

/-- The assignment `entries[1].ListFlags = 0` on the spliced list whose head is the new
item: clears the flags of the previously-first entry. -/
def clearHead : List MdNode → List MdNode
  | [] => []
  | e :: rest => setFlagsTo e 0 :: rest

/-- The assignment `entries[len(entries)-2].ListFlags = 0` after appending the new item:
clears the flags of the previously-last entry. -/
def clearLast : List MdNode → List MdNode
  | [] => []
  | [e] => [setFlagsTo e 0]
  | e :: rest => e :: clearLast rest

/-- Result of the `readme` scan loop (repository.go lines 172-185):
either the name was found (`return nil`) or the insertion index. -/
inductive ScanRes where
  | dup
  | ins (i : Nat)

/-- The scan loop of `readme`: walk the entries; on `content == name`
stop with `dup`; on `content > name` stop with the current index;
otherwise `insertAt` stays `len(entries)`. `none` models a panic while
extracting the key. -/
def readmeScan (name : String) : List MdNode → Option ScanRes
  | [] => some (.ins 0)
  | e :: rest =>
    match keyOfEntry e with
    | none => none
    | some content =>
      if content = name then some .dup
      else if name < content then some (.ins 0)
      else (readmeScan name rest).map fun r =>
        match r with
        | .dup => ScanRes.dup
        | .ins i => ScanRes.ins (i + 1)

/-- The entry-list mutation of `readme` (repository.go lines 172-206):
scan for the insertion point; splice the new item in before it, or append
at the end; maintain the beginning/end-of-list markers exactly as the
source does. -/
def readmeUpdate (name : String) (entries : List MdNode) :
    Option (UpdResult (List MdNode)) :=
  match readmeScan name entries with
  | none => none
  | some .dup => some .skip
  | some (.ins i) =>
    if i < entries.length then
      if i = 0 then
        some (.write (newListItem name listItemBeginningOfList :: clearHead entries))
      else
        some (.write (entries.take i ++ newListItem name 0 :: entries.drop i))
    else
      if entries.isEmpty then
        some (.write [newListItem name listItemEndOfList])
      else
        some (.write (clearLast entries ++ [newListItem name listItemEndOfList]))

/-- The entry list after one `readme` invocation (`none` = crash). -/
def readmeStep (name : String) (entries : List MdNode) : Option (List MdNode) :=
  (readmeUpdate name entries).map (applyUpd · entries)

/-- The link-text keys of the entries, in order. -/
def keysMd (entries : List MdNode) : List String :=
  entries.filterMap keyOfEntry

/-- Every entry's key extraction succeeds (no panic during the scan). -/
def wfM (entries : List MdNode) : Bool :=
  entries.all fun e => (keyOfEntry e).isSome

/-- The `ListFlags` of the entries, in order. -/
def flagsMd (entries : List MdNode) : List Nat :=
  entries.map MdNode.listFlags

/-- The link texts of the entries currently holding the
beginning-of-list marker. -/
def begHolders (entries : List MdNode) : List String :=
  (entries.filter fun e => e.listFlags &&& listItemBeginningOfList != 0).filterMap keyOfEntry

/-- The link texts of the entries currently holding the
end-of-list marker. -/
def endHolders (entries : List MdNode) : List String :=
  (entries.filter fun e => e.listFlags &&& listItemEndOfList != 0).filterMap keyOfEntry

/-! ### JSON manifest: `record` (repository.go lines 214-240) -/

/-- Models `cmp.Less` on Go strings (bytewise on UTF-8, which coincides with the
codepoint-lexicographic `≤` of Lean's `String` order), as the Boolean
comparator of `slices.Sort`. -/
def goLe (a b : String) : Bool := a ≤ b

/-- The manifest mutation of `record` (repository.go lines 225-232): scan
for `name`; if present return before writing, otherwise append `name` and
sort ascending. `slices.Sort` produces the unique sorted permutation of
its input, here written as `List.mergeSort`. -/
def record (repositories : List String) (name : String) : UpdResult (List String) :=
  if name ∈ repositories then .skip
  else .write (List.mergeSort (repositories ++ [name]) goLe)

/-- The manifest content after one `record` invocation. -/
def recordStep (repositories : List String) (name : String) : List String :=
  applyUpd (record repositories name) repositories

/-! ### File names (repository.go lines 22-25) and the pipeline -/

def templateDir : String := ".template"

def repositoryFile : String := "repository.json"

def indexFile : String := "index.html"

def readmeFile : String := "README.md"

/-- Create-or-overwrite of a rendered template directory, keyed by target
name (`instance` + `render`: `os.MkdirAll` then one `O_TRUNC` write per
template file; rendering the same name again overwrites with the same
bytes). -/
def upsert (k : String) (v : List (String × String)) :
    List (String × List (String × String)) → List (String × List (String × String))
  | [] => [(k, v)]
  | (k', v') :: rest =>
    if k' = k then (k, v) :: rest else (k', v') :: upsert k v rest

/-- The file-system state the program touches: the rendered target
directories, the children of the `<ul>` in `index.html`, the entries of
the bullet list in `README.md` (the rest of both documents is never
touched by the updaters), and the JSON array in `repository.json`. -/
structure Site where
  dirs : List (String × List (String × String))
  ulChildren : List HtmlNode
  mdEntries : List MdNode
  manifest : List String

/-- One full successful run of the four steps on well-located documents:
`instance` renders the templates (`tpl` is the deterministic rendering of
the template set for a name), then `index`, `readme` and `record` update
their documents. Returns the new state and which of the three backing
documents were rewritten; `none` models a crash. -/
def runPipeline (tpl : String → List (String × String)) (name : String)
    (s : Site) : Option (Site × List String) :=
  match insertLoop name (newChildren name) s.ulChildren with
  | none => none
  | some rh =>
    match readmeUpdate name s.mdEntries with
    | none => none
    | some rm =>
      let rj := record s.manifest name
      some ({ dirs := upsert name (tpl name) s.dirs,
              ulChildren := applyUpd rh s.ulChildren,
              mdEntries := applyUpd rm s.mdEntries,
              manifest := applyUpd rj s.manifest },
        (if rh.isWrite then [indexFile] else []) ++
        (if rm.isWrite then [readmeFile] else []) ++
        (if rj.isWrite then [repositoryFile] else []))

/-! ### Driver: `main` (repository.go lines 242-265) -/

inductive GoStep where
  | instanceStep
  | indexStep
  | readmeStep
  | recordStep
deriving DecidableEq

/-- Observable outcome of one process run: final file-system state, exit
code, the steps that were invoked, and what was logged (logger prefix
`"repository: "`, `log.Fatal` exits with code 1). -/
structure DriverOut (σ : Type) where
  final : σ
  exitCode : Nat
  invoked : List GoStep
  logged : List String

/-- The driver `main`: with no name argument (`len(os.Args) == 1`) log the usage
error and exit 1 without touching anything; otherwise run `instance`,
`index`, `readme`, `record` in that order on `os.Args[1]`, stopping at
the first failure with exit code 1 and no rollback. The four steps are
abstract state transformers, exactly as `main` treats them. -/
def mainGo {σ : Type} (args : List String)
    (inst idx rdm rcd : String → σ → Except String σ) (s : σ) : DriverOut σ :=
  if args.length = 1 then
    ⟨s, 1, [], ["repository: missing repository name argument"]⟩
  else
    let name := args[1]?.getD ""
    match inst name s with
    | .error e => ⟨s, 1, [.instanceStep], ["repository: " ++ e]⟩
    | .ok s1 =>
      match idx name s1 with
      | .error e => ⟨s1, 1, [.instanceStep, .indexStep], ["repository: " ++ e]⟩
      | .ok s2 =>
        match rdm name s2 with
        | .error e =>
          ⟨s2, 1, [.instanceStep, .indexStep, .readmeStep], ["repository: " ++ e]⟩
        | .ok s3 =>
          match rcd name s3 with
          | .error e =>
            ⟨s3, 1, [.instanceStep, .indexStep, .readmeStep, .recordStep],
              ["repository: " ++ e]⟩
          | .ok s4 =>
            ⟨s4, 0, [.instanceStep, .indexStep, .readmeStep, .recordStep], []⟩

/-! ### Per-operation I/O traces (read → mutate → render → write) -/

/-- One `index` invocation with its fallible externals as oracles:
`loadRes` is the read+parse of `index.html`, `renderRes` the
`html.Render`, `writeRes` the `os.WriteFile`. Result: the Go error value
and the list of files written. `none` models a non-returning run (the
search loop spinning on a missing path element, or a nil-pointer panic in
the insertion scan). -/
def indexRun (name : String) (loadRes : Except String HtmlNode)
    (renderRes : Except String Unit) (writeRes : Except String Unit) :
    Option (Except String Unit × List String) :=
  match loadRes with
  | .error e => some (.error e, [])
  | .ok document =>
    match pathFind ["html", "body", "div", "ul"] document with
    | none => none
    | some ul =>
      match insertLoop name (newChildren name) ul.children with
      | none => none
      | some .skip => some (.ok (), [])
      | some (.write _) =>
        match renderRes with
        | .error e => some (.error e, [])
        | .ok _ =>
          match writeRes with
          | .error e => some (.error e, [])
          | .ok _ => some (.ok (), [indexFile])

/-- The document-level `readme` mutation (repository.go line 170):
`document.AsContainer().Children[1].AsContainer()` locates the bullet
list (the second top-level block), whose children are the entries. -/
def readmeDocUpdate (name : String) (document : MdNode) :
    Option (UpdResult (List MdNode)) :=
  match document.asContainer with
  | none => none
  | some docChildren =>
    match docChildren[1]? with
    | none => none
    | some listNode =>
      match listNode.asContainer with
      | none => none
      | some entries => readmeUpdate name entries

/-- One `readme` invocation with oracles: `loadRes` is the read of
`README.md` (the gomarkdown parser itself never fails), `writeRes` the
`os.WriteFile` (markdown rendering returns no error). -/
def readmeRun (name : String) (loadRes : Except String MdNode)
    (writeRes : Except String Unit) :
    Option (Except String Unit × List String) :=
  match loadRes with
  | .error e => some (.error e, [])
  | .ok document =>
    match readmeDocUpdate name document with
    | none => none
    | some .skip => some (.ok (), [])
    | some (.write _) =>
      match writeRes with
      | .error e => some (.error e, [])
      | .ok _ => some (.ok (), [readmeFile])

/-- One `record` invocation with oracles: `loadRes` is the read +
`json.Unmarshal` of `repository.json`, `marshalRes` the
`json.MarshalIndent`, `writeRes` the `os.WriteFile`. `record` itself
cannot crash. -/
def recordRun (name : String) (loadRes : Except String (List String))
    (marshalRes : Except String Unit) (writeRes : Except String Unit) :
    Except String Unit × List String :=
  match loadRes with
  | .error e => (.error e, [])
  | .ok repositories =>
    match record repositories name with
    | .skip => (.ok (), [])
    | .write _ =>
      match marshalRes with
      | .error e => (.error e, [])
      | .ok _ =>
        match writeRes with
        | .error e => (.error e, [])
        | .ok _ => (.ok (), [repositoryFile])

/-! ### Structural preconditions (claimed shapes of the two documents) -/

/-- Every element child of the located `<ul>` is an `<li>` whose first
child is an anchor whose first child is a text node. -/
def wfUlChild (c : HtmlNode) : Bool :=
  c.type != HtmlNodeType.elementNode ||
    (c.data == "li" &&
      match c.children.head? with
      | none => false
      | some a =>
        a.type == HtmlNodeType.elementNode && a.data == "a" &&
          match a.children.head? with
          | none => false
          | some t => t.type == HtmlNodeType.textNode)

def wfUl (children : List HtmlNode) : Bool := children.all wfUlChild

/-- A list item whose first child is a container whose second child is a
link containing a leaf text node as its first child. -/
def wfMdEntry (e : MdNode) : Bool :=
  e.container &&
    match e.children[0]? with
    | none => false
    | some p =>
      p.container &&
        match p.children[1]? with
        | none => false
        | some link =>
          link.container &&
            match link.children[0]? with
            | none => false
            | some t => !t.container

/-- The parsed README document has at least two top-level blocks, the
second being a bullet list all of whose items are well-formed. -/
def wfMdDoc (document : MdNode) : Bool :=
  document.container &&
    match document.children[1]? with
    | none => false
    | some listNode => listNode.container && listNode.children.all wfMdEntry

/-! ### Folding many insertions (ordering invariant) -/

def foldIndex : List String → List HtmlNode → Option (List HtmlNode)
  | [], l => some l
  | n :: ns, l =>
    match indexStep n l with
    | none => none
    | some l2 => foldIndex ns l2

def foldReadme : List String → List MdNode → Option (List MdNode)
  | [], entries => some entries
  | n :: ns, entries =>
    match readmeStep n entries with
    | none => none
    | some es => foldReadme ns es

def foldRecord : List String → List String → List String
  | [], repositories => repositories
  | n :: ns, repositories => foldRecord ns (recordStep repositories n)

/-- Strictly ascending: sorted with no duplicate keys. -/
def strictSorted : List String → Bool
  | [] => true
  | [_] => true
  | a :: b :: rest => (a < b) && strictSorted (b :: rest)

/-- A parsed `index.html` with no `<div>` (e.g. the parse of an empty
file: `html.Parse` always supplies `html`, `head` and `body`). -/
def emptyIndexDoc : HtmlNode :=
  HtmlNode.mk .documentNode "" []
    [ HtmlNode.mk .elementNode "html" []
        [ HtmlNode.mk .elementNode "head" [] [],
          HtmlNode.mk .elementNode "body" [] [] ] ]

/-- A parsed `index.html` whose body holds `<div><ul></ul></div>`. -/
def goodIndexDoc : HtmlNode :=
  HtmlNode.mk .documentNode "" []
    [ HtmlNode.mk .elementNode "html" []
        [ HtmlNode.mk .elementNode "head" [] [],
          HtmlNode.mk .elementNode "body" []
            [ HtmlNode.mk .elementNode "div" []
                [ HtmlNode.mk .elementNode "ul" [] [] ] ] ] ]

/-- A parsed README: a heading block followed by a one-item bullet list
(the single item carries both boundary markers, `16 ||| 32`). -/
def sampleMdDoc : MdNode :=
  MdNode.mk true
    [ MdNode.mk true [] "heading" 0,
      MdNode.mk true [newListItem "beta" 48] "" 0 ]
    "" 0


@[simp]
theorem HtmlNode.type_mk (t : HtmlNodeType) (d : String)
    (a : List (String × String)) (c : List HtmlNode) :
    (HtmlNode.mk t d a c).type = t := rfl

@[simp]
theorem HtmlNode.data_mk (t : HtmlNodeType) (d : String)
    (a : List (String × String)) (c : List HtmlNode) :
    (HtmlNode.mk t d a c).data = d := rfl

@[simp]
theorem HtmlNode.attr_mk (t : HtmlNodeType) (d : String)
    (a : List (String × String)) (c : List HtmlNode) :
    (HtmlNode.mk t d a c).attr = a := rfl

@[simp]
theorem HtmlNode.children_mk (t : HtmlNodeType) (d : String)
    (a : List (String × String)) (c : List HtmlNode) :
    (HtmlNode.mk t d a c).children = c := rfl

theorem searchStep_fix {s : SearchState} {tag : String} {rest : List String}
    (hp : s.parts = tag :: rest) (hf : findChild tag s.element.children = none) :
    searchStep s = s := by
  unfold searchStep
  rw [hp]
  simp [hf]

theorem iterateSearch_fix {s : SearchState} (h : searchStep s = s) :
    ∀ n, iterateSearch n s = s := by
  intro n
  induction n with
  | zero => rfl
  | succ n ih => rw [iterateSearch, h, ih]

theorem iterateSearch_add (m n : Nat) (s : SearchState) :
    iterateSearch (m + n) s = iterateSearch n (iterateSearch m s) := by
  induction m generalizing s with
  | zero => simp [iterateSearch]
  | succ m ih =>
    have : m + 1 + n = m + n + 1 := by omega
    rw [this]
    rw [iterateSearch, ih, iterateSearch]

/-- If every level of the path has a matching element child, the loop
reaches the empty-parts state (guard false, loop exits) in exactly
`parts.length` iterations, holding the found element. -/
theorem iterateSearch_of_pathFind :
    ∀ (parts : List String) (el res : HtmlNode),
      pathFind parts el = some res →
      iterateSearch parts.length ⟨parts, el⟩ = ⟨[], res⟩ := by
  intro parts
  induction parts with
  | nil =>
    intro el res h
    simp [pathFind] at h
    simp [iterateSearch, h]
  | cons tag rest ih =>
    intro el res h
    unfold pathFind at h
    cases hf : findChild tag el.children with
    | none => rw [hf] at h; exact absurd h (by simp)
    | some c =>
      rw [hf] at h
      simp only [List.length_cons]
      rw [iterateSearch]
      have hs : searchStep ⟨tag :: rest, el⟩ = ⟨rest, c⟩ := by
        unfold searchStep
        simp [hf]
      rw [hs]
      exact ih c res h

theorem wfH_cons {c : HtmlNode} {rest : List HtmlNode} :
    wfH (c :: rest) = ((c.type != HtmlNodeType.elementNode || (liChildKey c).isSome) && wfH rest) := by
  simp [wfH]

theorem keysHtml_cons_elem {c : HtmlNode} {rest : List HtmlNode} {k : String}
    (ht : c.type = HtmlNodeType.elementNode) (hk : liChildKey c = some k) :
    keysHtml (c :: rest) = k :: keysHtml rest := by
  simp [keysHtml, ht, hk]

theorem keysHtml_cons_nonelem {c : HtmlNode} {rest : List HtmlNode}
    (ht : ¬ c.type = HtmlNodeType.elementNode) :
    keysHtml (c :: rest) = keysHtml rest := by
  simp [keysHtml, ht]

theorem keysHtml_newChildren (name : String) :
    keysHtml (newChildren name) = [name] := by
  simp [keysHtml, newChildren, liChildKey]

theorem wfH_newChildren (name : String) : wfH (newChildren name) = true := by
  simp [wfH, newChildren, liChildKey]

theorem keysHtml_append (a b : List HtmlNode) :
    keysHtml (a ++ b) = keysHtml a ++ keysHtml b := by
  simp [keysHtml]

theorem wfH_append {a b : List HtmlNode} (ha : wfH a = true) (hb : wfH b = true) :
    wfH (a ++ b) = true := by
  simp only [wfH, List.all_append]
  simp only [wfH] at ha hb
  simp [ha, hb]

theorem applyUpd_mapWrite_cons (c : HtmlNode) (r : UpdResult (List HtmlNode))
    (rest : List HtmlNode) :
    applyUpd (mapWrite (c :: ·) r) (c :: rest) = c :: applyUpd r rest := by
  cases r <;> rfl

/-- Core soundness of the `index` insertion scan: on a crash-free child
list it succeeds, preserves crash-freedom, makes `name` one of the keys,
adds no key other than `name`, is a no-op when run again on its own
output, and preserves strict sortedness of the keys. -/
theorem insertLoop_sound (name : String) :
    ∀ l : List HtmlNode, wfH l = true →
      ∃ r, insertLoop name (newChildren name) l = some r ∧
        wfH (applyUpd r l) = true ∧
        name ∈ keysHtml (applyUpd r l) ∧
        (∀ x ∈ keysHtml (applyUpd r l), x ∈ keysHtml l ∨ x = name) ∧
        insertLoop name (newChildren name) (applyUpd r l) = some UpdResult.skip ∧
        ((keysHtml l).Pairwise (· < ·) → (keysHtml (applyUpd r l)).Pairwise (· < ·)) := by
  intro l
  induction l with
  | nil =>
    intro _
    refine ⟨.write (newChildren name), rfl, ?_, ?_, ?_, ?_, ?_⟩
    · exact wfH_newChildren name
    · simp [applyUpd, keysHtml_newChildren]
    · simp [applyUpd, keysHtml_newChildren]
    · simp [applyUpd, insertLoop, newChildren, liChildKey]
    · intro _
      simp [applyUpd, keysHtml_newChildren]
  | cons c rest ih =>
    intro hwf
    rw [wfH_cons] at hwf
    simp only [Bool.and_eq_true, Bool.or_eq_true, bne_iff_ne, ne_eq,
      Option.isSome_iff_exists] at hwf
    obtain ⟨hc, hrest⟩ := hwf
    replace hrest : wfH rest = true := hrest
    by_cases ht : c.type = HtmlNodeType.elementNode
    · obtain ⟨k, hk⟩ : ∃ k, liChildKey c = some k := by
        rcases hc with h | h
        · exact absurd ht h
        · exact h
      by_cases hle : name ≤ k
      · by_cases heq : k = name
        · -- duplicate found: skip, document untouched
          refine ⟨.skip, ?_, ?_, ?_, ?_, ?_, ?_⟩
          · simp [insertLoop, ht, hk, hle, heq]
          · simp only [applyUpd, wfH_cons]
            simp [ht, hk, hrest]
          · simp [applyUpd, keysHtml_cons_elem ht hk, heq]
          · intro x hx; exact Or.inl hx
          · simp [applyUpd, insertLoop, ht, hk, hle, heq]
          · intro hs; simpa [applyUpd] using hs
        · -- name < k: insert the two new nodes before c
          have hlt : name < k := lt_of_le_of_ne hle (fun h => heq h.symm)
          refine ⟨.write (newChildren name ++ c :: rest), ?_, ?_, ?_, ?_, ?_, ?_⟩
          · simp [insertLoop, ht, hk, hle, heq]
          · simp only [applyUpd]
            refine wfH_append (wfH_newChildren name) ?_
            rw [wfH_cons]
            simp [ht, hk, hrest]
          · simp [applyUpd, keysHtml_append, keysHtml_newChildren]
          · intro x hx
            simp only [applyUpd, keysHtml_append, keysHtml_newChildren] at hx
            rcases List.mem_append.mp hx with h | h
            · right; simpa using h
            · left; exact h
          · simp [applyUpd, insertLoop, newChildren, liChildKey]
          · intro hs
            simp only [applyUpd, keysHtml_append, keysHtml_newChildren]
            rw [keysHtml_cons_elem ht hk] at hs ⊢
            simp only [List.singleton_append]
            refine List.Pairwise.cons ?_ hs
            intro x hx
            rcases List.mem_cons.mp hx with h | h
            · exact h ▸ hlt
            · exact lt_trans hlt (List.rel_of_pairwise_cons hs h)
      · -- k < name: keep c, continue scanning the rest
        obtain ⟨r', hr', hwf', hmem', hsup', hskip', hsort'⟩ := ih hrest
        refine ⟨mapWrite (c :: ·) r', ?_, ?_, ?_, ?_, ?_, ?_⟩
        · simp [insertLoop, ht, hk, hle, hr']
        · rw [applyUpd_mapWrite_cons, wfH_cons]
          simp [ht, hk, hwf']
        · rw [applyUpd_mapWrite_cons, keysHtml_cons_elem ht hk]
          exact List.mem_cons_of_mem _ hmem'
        · intro x hx
          rw [applyUpd_mapWrite_cons, keysHtml_cons_elem ht hk] at hx
          rcases List.mem_cons.mp hx with h | h
          · left; rw [keysHtml_cons_elem ht hk]; exact h ▸ List.mem_cons_self _ _
          · rcases hsup' x h with h' | h'
            · left; rw [keysHtml_cons_elem ht hk]; exact List.mem_cons_of_mem _ h'
            · right; exact h'
        · rw [applyUpd_mapWrite_cons]
          simp [insertLoop, ht, hk, hle, hskip', mapWrite]
        · intro hs
          rw [keysHtml_cons_elem ht hk] at hs
          rw [applyUpd_mapWrite_cons, keysHtml_cons_elem ht hk]
          have hk_lt : k < name := lt_of_not_ge hle
          refine List.Pairwise.cons ?_ (hsort' (List.Pairwise.sublist (List.sublist_cons_self _ _) hs))
          intro x hx
          rcases hsup' x hx with h' | h'
          · exact List.rel_of_pairwise_cons hs h'
          · exact h' ▸ hk_lt
    · -- non-element child (text node etc.): keep it, continue
      obtain ⟨r', hr', hwf', hmem', hsup', hskip', hsort'⟩ := ih hrest
      refine ⟨mapWrite (c :: ·) r', ?_, ?_, ?_, ?_, ?_, ?_⟩
      · simp [insertLoop, ht, hr']
      · rw [applyUpd_mapWrite_cons, wfH_cons]
        simp [ht, hwf']
      · rw [applyUpd_mapWrite_cons, keysHtml_cons_nonelem ht]
        exact hmem'
      · intro x hx
        rw [applyUpd_mapWrite_cons, keysHtml_cons_nonelem ht] at hx
        rw [keysHtml_cons_nonelem ht]
        exact hsup' x hx
      · rw [applyUpd_mapWrite_cons]
        simp [insertLoop, ht, hskip', mapWrite]
      · intro hs
        rw [keysHtml_cons_nonelem ht] at hs
        rw [applyUpd_mapWrite_cons, keysHtml_cons_nonelem ht]
        exact hsort' hs

@[simp]
theorem MdNode.container_mk (c : Bool) (ch : List MdNode) (l : String) (f : Nat) :
    (MdNode.mk c ch l f).container = c := rfl

@[simp]
theorem MdNode.children_mk_eq (c : Bool) (ch : List MdNode) (l : String) (f : Nat) :
    (MdNode.mk c ch l f).children = ch := rfl

@[simp]
theorem MdNode.literal_mk (c : Bool) (ch : List MdNode) (l : String) (f : Nat) :
    (MdNode.mk c ch l f).literal = l := rfl

@[simp]
theorem MdNode.listFlags_mk (c : Bool) (ch : List MdNode) (l : String) (f : Nat) :
    (MdNode.mk c ch l f).listFlags = f := rfl

@[simp]
theorem keyOfEntry_newListItem (name : String) (flags : Nat) :
    keyOfEntry (newListItem name flags) = some name := rfl

@[simp]
theorem listFlags_newListItem (name : String) (flags : Nat) :
    (newListItem name flags).listFlags = flags := rfl

@[simp]
theorem keyOfEntry_setFlagsTo (e : MdNode) (f : Nat) :
    keyOfEntry (setFlagsTo e f) = keyOfEntry e := by
  cases e
  rfl

@[simp]
theorem listFlags_setFlagsTo (e : MdNode) (f : Nat) :
    (setFlagsTo e f).listFlags = f := by
  cases e
  rfl

theorem keysMd_append (a b : List MdNode) :
    keysMd (a ++ b) = keysMd a ++ keysMd b := by
  simp [keysMd]

theorem wfM_cons {e : MdNode} {rest : List MdNode} :
    wfM (e :: rest) = ((keyOfEntry e).isSome && wfM rest) := by
  simp [wfM]

theorem keysMd_cons (e : MdNode) (rest : List MdNode) :
    keysMd (e :: rest) =
      match keyOfEntry e with
      | none => keysMd rest
      | some k => k :: keysMd rest := by
  simp only [keysMd, List.filterMap_cons]
  cases keyOfEntry e <;> rfl

theorem keysMd_clearHead (entries : List MdNode) :
    keysMd (clearHead entries) = keysMd entries := by
  cases entries with
  | nil => rfl
  | cons e rest =>
    rw [show clearHead (e :: rest) = setFlagsTo e 0 :: rest from rfl]
    rw [keysMd_cons, keysMd_cons, keyOfEntry_setFlagsTo]

theorem keysMd_clearLast (entries : List MdNode) :
    keysMd (clearLast entries) = keysMd entries := by
  induction entries with
  | nil => rfl
  | cons e rest ih =>
    cases rest with
    | nil =>
      rw [show clearLast [e] = [setFlagsTo e 0] from rfl]
      rw [keysMd_cons, keysMd_cons, keyOfEntry_setFlagsTo]
    | cons f rest' =>
      rw [show clearLast (e :: f :: rest') = e :: clearLast (f :: rest') from rfl]
      rw [keysMd_cons, keysMd_cons, ih]

theorem wfM_clearHead {entries : List MdNode} (h : wfM entries = true) :
    wfM (clearHead entries) = true := by
  cases entries with
  | nil => rfl
  | cons e rest =>
    rw [show clearHead (e :: rest) = setFlagsTo e 0 :: rest from rfl]
    rw [wfM_cons] at h ⊢
    simpa using h

theorem wfM_clearLast {entries : List MdNode} (h : wfM entries = true) :
    wfM (clearLast entries) = true := by
  induction entries with
  | nil => rfl
  | cons e rest ih =>
    rw [wfM_cons] at h
    simp only [Bool.and_eq_true] at h
    cases rest with
    | nil =>
      simp only [clearLast, wfM, List.all_cons, List.all_nil]
      simp [h.1]
    | cons f rest' =>
      rw [show clearLast (e :: f :: rest') = e :: clearLast (f :: rest') from rfl]
      rw [wfM_cons]
      simp [h.1, ih h.2]

theorem keysMd_cons_some {e : MdNode} {rest : List MdNode} {k : String}
    (hk : keyOfEntry e = some k) : keysMd (e :: rest) = k :: keysMd rest := by
  simp [keysMd, List.filterMap_cons, hk]

theorem wfM_iff {entries : List MdNode} :
    wfM entries = true ↔ ∀ e ∈ entries, (keyOfEntry e).isSome = true := by
  simp [wfM, List.all_eq_true]

/-- What the `readme` scan loop returns: the name is found (first
matching entry), or the insertion index `i`, which is at most the length,
has only keys `< name` strictly before it, and, when within the list,
points at an entry whose key is `> name`. -/
theorem readmeScan_char (name : String) :
    ∀ entries : List MdNode, wfM entries = true →
      (readmeScan name entries = some ScanRes.dup ∧ name ∈ keysMd entries) ∨
      (∃ i, readmeScan name entries = some (ScanRes.ins i) ∧ i ≤ entries.length ∧
        (∀ k ∈ keysMd (entries.take i), k < name) ∧
        (i < entries.length →
          ∃ e, entries.drop i = e :: entries.drop (i + 1) ∧
            ∃ ki, keyOfEntry e = some ki ∧ name < ki)) := by
  intro entries
  induction entries with
  | nil =>
    intro _
    right
    exact ⟨0, rfl, Nat.le_refl 0, by simp [keysMd], by simp⟩
  | cons e rest ih =>
    intro hwf
    rw [wfM_cons] at hwf
    simp only [Bool.and_eq_true, Option.isSome_iff_exists] at hwf
    obtain ⟨⟨k, hk⟩, hrest⟩ := hwf
    replace hrest : wfM rest = true := hrest
    by_cases heq : k = name
    · left
      refine ⟨by simp [readmeScan, hk, heq], ?_⟩
      rw [keysMd_cons_some hk, heq]
      exact List.mem_cons_self _ _
    · by_cases hlt : name < k
      · right
        refine ⟨0, ?_, Nat.zero_le _, ?_, ?_⟩
        · simp [readmeScan, hk, heq, hlt]
        · simp [keysMd]
        · intro _
          exact ⟨e, by simp, k, hk, hlt⟩
      · have hklt : k < name := by
          rcases lt_trichotomy k name with h | h | h
          · exact h
          · exact absurd h heq
          · exact absurd h hlt
        rcases ih hrest with ⟨hd, hmem⟩ | ⟨i, hs, hle, hwin, hat⟩
        · left
          refine ⟨by simp [readmeScan, hk, heq, hlt, hd], ?_⟩
          rw [keysMd_cons_some hk]
          exact List.mem_cons_of_mem _ hmem
        · right
          refine ⟨i + 1, ?_, ?_, ?_, ?_⟩
          · simp [readmeScan, hk, heq, hlt, hs]
          · simpa using Nat.succ_le_succ hle
          · intro x hx
            rw [List.take_succ_cons, keysMd_cons_some hk] at hx
            rcases List.mem_cons.mp hx with h | h
            · exact h ▸ hklt
            · exact hwin x h
          · intro hlen
            have hi : i < rest.length := by simpa using Nat.lt_of_succ_lt_succ hlen
            obtain ⟨e', hdrop, ki, hki, hnki⟩ := hat hi
            exact ⟨e', by simpa using hdrop, ki, hki, hnki⟩

/-- Running the scan again over a list whose prefix keys are all `< name`
and which then holds an entry keyed exactly `name` finds the duplicate. -/
theorem readmeScan_prefix_dup (name : String) :
    ∀ A : List MdNode, wfM A = true → (∀ k ∈ keysMd A, k < name) →
      ∀ (e : MdNode) (B : List MdNode), keyOfEntry e = some name →
        readmeScan name (A ++ e :: B) = some ScanRes.dup := by
  intro A
  induction A with
  | nil =>
    intro _ _ e B he
    simp [readmeScan, he]
  | cons a A' ih =>
    intro hwf hkeys e B he
    rw [wfM_cons] at hwf
    simp only [Bool.and_eq_true, Option.isSome_iff_exists] at hwf
    obtain ⟨⟨k, hk⟩, hA'⟩ := hwf
    replace hA' : wfM A' = true := hA'
    have hklt : k < name := hkeys k (by rw [keysMd_cons_some hk]; exact List.mem_cons_self _ _)
    have hne : ¬ k = name := ne_of_lt hklt
    have hnlt : ¬ name < k := not_lt.mpr (le_of_lt hklt)
    have htail : ∀ x ∈ keysMd A', x < name := fun x hx =>
      hkeys x (by rw [keysMd_cons_some hk]; exact List.mem_cons_of_mem _ hx)
    rw [List.cons_append]
    simp [readmeScan, hk, hne, hnlt, ih hA' htail e B he]

theorem wfM_append {a b : List MdNode} (ha : wfM a = true) (hb : wfM b = true) :
    wfM (a ++ b) = true := by
  simp only [wfM, List.all_append]
  simp only [wfM] at ha hb
  simp [ha, hb]

theorem wfM_take {entries : List MdNode} (h : wfM entries = true) (i : Nat) :
    wfM (entries.take i) = true := by
  rw [wfM_iff] at h ⊢
  exact fun e he => h e (List.take_subset i entries he)

theorem wfM_drop {entries : List MdNode} (h : wfM entries = true) (i : Nat) :
    wfM (entries.drop i) = true := by
  rw [wfM_iff] at h ⊢
  exact fun e he => h e (List.drop_subset i entries he)

/-- Core soundness of the `readme` entry-list update: on a crash-free
entry list it succeeds, preserves crash-freedom, makes `name` one of the
link texts, adds no link text other than `name`, is a no-op when run again
on its own output, and preserves strict sortedness of the link texts. -/
theorem readmeUpdate_sound (name : String) (entries : List MdNode)
    (hwf : wfM entries = true) :
    ∃ r, readmeUpdate name entries = some r ∧
      wfM (applyUpd r entries) = true ∧
      name ∈ keysMd (applyUpd r entries) ∧
      (∀ x ∈ keysMd (applyUpd r entries), x ∈ keysMd entries ∨ x = name) ∧
      readmeUpdate name (applyUpd r entries) = some UpdResult.skip ∧
      ((keysMd entries).Pairwise (· < ·) →
        (keysMd (applyUpd r entries)).Pairwise (· < ·)) := by
  rcases readmeScan_char name entries hwf with ⟨hd, hmem⟩ | ⟨i, hs, hle, hwin, hat⟩
  · refine ⟨.skip, ?_, ?_, ?_, ?_, ?_, ?_⟩
    · simp [readmeUpdate, hd]
    · simpa [applyUpd] using hwf
    · simpa [applyUpd] using hmem
    · intro x hx
      exact Or.inl (by simpa [applyUpd] using hx)
    · simp [readmeUpdate, applyUpd, hd]
    · intro hsrt
      simpa [applyUpd] using hsrt
  · by_cases hilen : i < entries.length
    · obtain ⟨e0, hdrop, ki, hki, hnki⟩ := hat hilen
      by_cases hi0 : i = 0
      · -- insert at the front: mark beginning-of-list, clear old first
        subst hi0
        have hent : entries = e0 :: entries.drop 1 := by simpa using hdrop
        have hkeys : keysMd entries = ki :: keysMd (entries.drop 1) := by
          conv_lhs => rw [hent]
          exact keysMd_cons_some hki
        have hres : keysMd (newListItem name listItemBeginningOfList :: clearHead entries)
            = name :: keysMd entries := by
          rw [keysMd_cons_some (keyOfEntry_newListItem name _), keysMd_clearHead]
        refine ⟨.write (newListItem name listItemBeginningOfList :: clearHead entries),
          ?_, ?_, ?_, ?_, ?_, ?_⟩
        · simp [readmeUpdate, hs, hilen]
        · simp only [applyUpd]
          rw [wfM_cons]
          simp [wfM_clearHead hwf]
        · simp only [applyUpd]
          rw [hres]
          exact List.mem_cons_self _ _
        · intro x hx
          simp only [applyUpd] at hx
          rw [hres] at hx
          rcases List.mem_cons.mp hx with h | h
          · exact Or.inr h
          · exact Or.inl h
        · simp only [applyUpd]
          have : readmeScan name
              (newListItem name listItemBeginningOfList :: clearHead entries)
              = some ScanRes.dup := by
            simp [readmeScan]
          simp [readmeUpdate, this]
        · intro hsrt
          simp only [applyUpd]
          rw [hres]
          refine List.Pairwise.cons ?_ hsrt
          intro x hx
          rw [hkeys] at hx hsrt
          rcases List.mem_cons.mp hx with h | h
          · exact h ▸ hnki
          · exact lt_trans hnki (List.rel_of_pairwise_cons hsrt h)
      · -- insert in the middle: no markers touched
        have hABkeys : keysMd (entries.take i) ++ keysMd (entries.drop i)
            = keysMd entries := by
          rw [← keysMd_append, List.take_append_drop]
        have hres : keysMd (entries.take i ++ newListItem name 0 :: entries.drop i)
            = keysMd (entries.take i) ++ name :: keysMd (entries.drop i) := by
          rw [keysMd_append, keysMd_cons_some (keyOfEntry_newListItem name 0)]
        refine ⟨.write (entries.take i ++ newListItem name 0 :: entries.drop i),
          ?_, ?_, ?_, ?_, ?_, ?_⟩
        · simp [readmeUpdate, hs, hilen, hi0]
        · simp only [applyUpd]
          refine wfM_append (wfM_take hwf i) ?_
          rw [wfM_cons]
          simp [wfM_drop hwf i]
        · simp only [applyUpd]
          rw [hres]
          exact List.mem_append_right _ (List.mem_cons_self _ _)
        · intro x hx
          simp only [applyUpd] at hx
          rw [hres] at hx
          rcases List.mem_append.mp hx with h | h
          · exact Or.inl (hABkeys ▸ List.mem_append_left _ h)
          · rcases List.mem_cons.mp h with h' | h'
            · exact Or.inr h'
            · exact Or.inl (hABkeys ▸ List.mem_append_right _ h')
        · simp only [applyUpd]
          have hscan : readmeScan name
              (entries.take i ++ newListItem name 0 :: entries.drop i)
              = some ScanRes.dup :=
            readmeScan_prefix_dup name (entries.take i) (wfM_take hwf i) hwin
              (newListItem name 0) (entries.drop i) (keyOfEntry_newListItem name 0)
          simp [readmeUpdate, hscan]
        · intro hsrt
          simp only [applyUpd]
          rw [hres]
          rw [← hABkeys, List.pairwise_append] at hsrt
          obtain ⟨hA, hB, hcross⟩ := hsrt
          rw [List.pairwise_append]
          refine ⟨hA, ?_, ?_⟩
          · refine List.Pairwise.cons ?_ hB
            intro x hx
            have hBkeys : keysMd (entries.drop i)
                = ki :: keysMd (entries.drop (i + 1)) := by
              conv_lhs => rw [hdrop]
              exact keysMd_cons_some hki
            rw [hBkeys] at hx hB
            rcases List.mem_cons.mp hx with h | h
            · exact h ▸ hnki
            · exact lt_trans hnki (List.rel_of_pairwise_cons hB h)
          · intro a ha b hb
            rcases List.mem_cons.mp hb with h | h
            · exact h ▸ hwin a ha
            · exact hcross a ha b h
    · -- append at the end: mark end-of-list, clear old last
      have hieq : i = entries.length := Nat.le_antisymm hle (Nat.not_lt.mp hilen)
      have hwin' : ∀ k ∈ keysMd entries, k < name := by
        intro k hk
        refine hwin k ?_
        rw [hieq, List.take_length]
        exact hk
      by_cases hemp : entries.isEmpty
      · have hnil : entries = [] := List.isEmpty_iff.mp hemp
        subst hnil
        refine ⟨.write [newListItem name listItemEndOfList], ?_, ?_, ?_, ?_, ?_, ?_⟩
        · simp [readmeUpdate, hs, hieq]
        · simp [applyUpd, wfM]
        · simp [applyUpd, keysMd]
        · intro x hx
          simp only [applyUpd] at hx
          rw [keysMd_cons_some (keyOfEntry_newListItem name _)] at hx
          simp only [keysMd, List.filterMap_nil] at hx
          exact Or.inr (by simpa using hx)
        · simp [applyUpd, readmeUpdate, readmeScan]
        · intro _
          simp [applyUpd, keysMd_cons_some (keyOfEntry_newListItem name _), keysMd]
      · have hres : keysMd (clearLast entries ++ [newListItem name listItemEndOfList])
            = keysMd entries ++ [name] := by
          rw [keysMd_append, keysMd_clearLast,
            keysMd_cons_some (keyOfEntry_newListItem name _)]
          rfl
        refine ⟨.write (clearLast entries ++ [newListItem name listItemEndOfList]),
          ?_, ?_, ?_, ?_, ?_, ?_⟩
        · simp [readmeUpdate, hs, hieq, hemp]
        · simp only [applyUpd]
          refine wfM_append (wfM_clearLast hwf) ?_
          simp [wfM]
        · simp only [applyUpd]
          rw [hres]
          exact List.mem_append_right _ (List.mem_singleton.mpr rfl)
        · intro x hx
          simp only [applyUpd] at hx
          rw [hres] at hx
          rcases List.mem_append.mp hx with h | h
          · exact Or.inl h
          · exact Or.inr (List.mem_singleton.mp h)
        · simp only [applyUpd]
          have hscan : readmeScan name
              (clearLast entries ++ [newListItem name listItemEndOfList])
              = some ScanRes.dup := by
            have := readmeScan_prefix_dup name (clearLast entries) (wfM_clearLast hwf)
              (by rw [keysMd_clearLast]; exact hwin')
              (newListItem name listItemEndOfList) [] (keyOfEntry_newListItem name _)
            simpa using this
          simp [readmeUpdate, hscan]
        · intro hsrt
          simp only [applyUpd]
          rw [hres, List.pairwise_append]
          refine ⟨hsrt, List.pairwise_singleton _ _, ?_⟩
          intro a ha b hb
          rw [List.mem_singleton.mp hb]
          exact hwin' a ha

theorem goLe_trans : ∀ a b c : String, goLe a b → goLe b c → goLe a c := by
  intro a b c hab hbc
  simp only [goLe, decide_eq_true_eq] at *
  exact le_trans hab hbc

theorem goLe_total : ∀ a b : String, goLe a b || goLe b a := by
  intro a b
  simp only [goLe, Bool.or_eq_true, decide_eq_true_eq]
  exact le_total a b

/-- Core soundness of `record`: a present name skips (no write);
otherwise the written manifest is a permutation of the input plus the
name, sorted ascending; running `record` again on its own output skips;
and strict sortedness (sorted + duplicate-free) is preserved. -/
theorem record_sound (repositories : List String) (name : String) :
    (name ∈ repositories → record repositories name = UpdResult.skip) ∧
    (name ∉ repositories →
      record repositories name
        = UpdResult.write (List.mergeSort (repositories ++ [name]) goLe) ∧
      List.Perm (List.mergeSort (repositories ++ [name]) goLe) (repositories ++ [name]) ∧
      (List.mergeSort (repositories ++ [name]) goLe).Pairwise (· ≤ ·)) ∧
    name ∈ recordStep repositories name ∧
    record (recordStep repositories name) name = UpdResult.skip ∧
    (repositories.Pairwise (· < ·) →
      (recordStep repositories name).Pairwise (· < ·)) := by
  have hperm : List.Perm (List.mergeSort (repositories ++ [name]) goLe) (repositories ++ [name]) :=
    List.mergeSort_perm _ _
  have hsorted : (List.mergeSort (repositories ++ [name]) goLe).Pairwise (· ≤ ·) := by
    have h := List.sorted_mergeSort goLe_trans goLe_total (repositories ++ [name])
    refine h.imp ?_
    intro a b hab
    simpa [goLe] using hab
  by_cases hmem : name ∈ repositories
  · refine ⟨fun _ => by simp [record, hmem], fun h => absurd hmem h, ?_, ?_, ?_⟩
    · simp [recordStep, record, hmem, applyUpd, hmem]
    · simp [recordStep, record, hmem, applyUpd]
    · intro h
      simpa [recordStep, record, hmem, applyUpd] using h
  · have hrec : record repositories name
        = UpdResult.write (List.mergeSort (repositories ++ [name]) goLe) := by
      simp [record, hmem]
    have hstep : recordStep repositories name
        = List.mergeSort (repositories ++ [name]) goLe := by
      simp [recordStep, hrec, applyUpd]
    have hmem' : name ∈ recordStep repositories name := by
      rw [hstep]
      exact hperm.mem_iff.mpr (List.mem_append_right _ (List.mem_singleton.mpr rfl))
    refine ⟨fun h => absurd h hmem, fun _ => ⟨hrec, hperm, hsorted⟩, hmem', ?_, ?_⟩
    · simp [record, hmem']
    · intro hsrt
      rw [hstep]
      have hnodup : (List.mergeSort (repositories ++ [name]) goLe).Nodup := by
        refine hperm.nodup_iff.mpr ?_
        rw [List.nodup_append]
        refine ⟨hsrt.imp ne_of_lt, List.nodup_singleton name, ?_⟩
        intro a ha hb
        rw [List.mem_singleton.mp hb] at ha
        exact hmem ha
      exact (show List.Sorted (· ≤ ·) _ from hsorted).lt_of_le hnodup

theorem strictSorted_iff :
    ∀ l : List String, strictSorted l = true ↔ l.Pairwise (· < ·) := by
  intro l
  induction l with
  | nil => simp [strictSorted]
  | cons a rest ih =>
    cases rest with
    | nil => simp [strictSorted]
    | cons b rest' =>
      rw [show strictSorted (a :: b :: rest')
          = (decide (a < b) && strictSorted (b :: rest')) from rfl]
      constructor
      · intro h
        simp only [Bool.and_eq_true, decide_eq_true_eq] at h
        obtain ⟨hab, hrest⟩ := h
        have hp := ih.mp hrest
        refine List.Pairwise.cons ?_ hp
        intro x hx
        rcases List.mem_cons.mp hx with h' | h'
        · exact h' ▸ hab
        · exact lt_trans hab (List.rel_of_pairwise_cons hp h')
      · intro h
        simp only [Bool.and_eq_true, decide_eq_true_eq]
        exact ⟨List.rel_of_pairwise_cons h (List.mem_cons_self _ _),
          ih.mpr (List.Pairwise.sublist (List.sublist_cons_self _ _) h)⟩

theorem begHolders_append (a b : List MdNode) :
    begHolders (a ++ b) = begHolders a ++ begHolders b := by
  simp [begHolders, List.filter_append]

theorem endHolders_append (a b : List MdNode) :
    endHolders (a ++ b) = endHolders a ++ endHolders b := by
  simp [endHolders, List.filter_append]

theorem begHolders_eq_nil {l : List MdNode}
    (h : (l.all fun e => e.listFlags &&& listItemBeginningOfList == 0) = true) :
    begHolders l = [] := by
  simp only [begHolders]
  rw [List.filter_eq_nil_iff.mpr, List.filterMap_nil]
  intro e he
  simp only [List.all_eq_true] at h
  simpa using h e he

theorem endHolders_eq_nil {l : List MdNode}
    (h : (l.all fun e => e.listFlags &&& listItemEndOfList == 0) = true) :
    endHolders l = [] := by
  simp only [endHolders]
  rw [List.filter_eq_nil_iff.mpr, List.filterMap_nil]
  intro e he
  simp only [List.all_eq_true] at h
  simpa using h e he

theorem clearLast_eq :
    ∀ (l : List MdNode) (h : l ≠ []),
      clearLast l = l.dropLast ++ [setFlagsTo (l.getLast h) 0] := by
  intro l
  induction l with
  | nil => intro h; exact absurd rfl h
  | cons e rest ih =>
    intro h
    cases rest with
    | nil => simp [clearLast]
    | cons f rest' =>
      have hne : (f :: rest') ≠ [] := by simp
      rw [show clearLast (e :: f :: rest') = e :: clearLast (f :: rest') from rfl]
      rw [ih hne]
      have h2 : (e :: f :: rest').getLast h = (f :: rest').getLast hne :=
        List.getLast_cons hne
      rw [h2]
      rfl

theorem wfUl_wfH {children : List HtmlNode} (h : wfUl children = true) :
    wfH children = true := by
  simp only [wfUl, List.all_eq_true] at h
  simp only [wfH, List.all_eq_true]
  intro c hc
  have hcw := h c hc
  simp only [wfUlChild] at hcw
  by_cases ht : c.type = HtmlNodeType.elementNode
  · rw [Bool.or_eq_true] at hcw
    rcases hcw with h' | h'
    · simp [ht] at h'
    · simp only [Bool.and_eq_true] at h'
      obtain ⟨_, h'⟩ := h'
      cases ha : c.children.head? with
      | none => rw [ha] at h'; exact absurd h' (by simp)
      | some a =>
        rw [ha] at h'
        simp only [Bool.and_eq_true] at h'
        obtain ⟨_, h''⟩ := h'
        cases hta : a.children.head? with
        | none => rw [hta] at h''; exact absurd h'' (by simp)
        | some t =>
          simp only [liChildKey, ha, hta]
          simp
  · simp [ht]

theorem wfMdEntry_key {e : MdNode} (h : wfMdEntry e = true) :
    (keyOfEntry e).isSome = true := by
  simp only [wfMdEntry, Bool.and_eq_true] at h
  obtain ⟨hc, h⟩ := h
  cases hp : e.children[0]? with
  | none => rw [hp] at h; exact absurd h (by simp)
  | some p =>
    rw [hp] at h
    simp only [Bool.and_eq_true] at h
    obtain ⟨hpc, h⟩ := h
    cases hl : p.children[1]? with
    | none => rw [hl] at h; exact absurd h (by simp)
    | some link =>
      rw [hl] at h
      simp only [Bool.and_eq_true] at h
      obtain ⟨hlc, h⟩ := h
      cases htt : link.children[0]? with
      | none => rw [htt] at h; exact absurd h (by simp)
      | some t =>
        rw [htt] at h
        simp only [Bool.not_eq_true'] at h
        simp [keyOfEntry, MdNode.asContainer, MdNode.asLeaf, hc, hp, hpc,
          hl, hlc, htt, h]

theorem upsert_upsert (k : String) (v : List (String × String)) :
    ∀ l, upsert k v (upsert k v l) = upsert k v l := by
  intro l
  induction l with
  | nil => simp [upsert]
  | cons p rest ih =>
    obtain ⟨k', v'⟩ := p
    by_cases hk : k' = k
    · simp [upsert, hk]
    · simp [upsert, hk, ih]

/-- C2: running the full four-step sequence a second time with the same
name is the identity on the file system: the second run succeeds, writes
none of the three backing documents (each updater takes its
duplicate-found `return nil` path before any write), and therefore leaves
every file byte-identical; the template step deterministically overwrites
the same directory with the same rendered content. -/
theorem c2_pipeline_idempotent (tpl : String → List (String × String))
    (name : String) (s : Site) (out : Site × List String)
    (hwfh : wfH s.ulChildren = true) (hwfm : wfM s.mdEntries = true)
    (h : runPipeline tpl name s = some out) :
    runPipeline tpl name out.1 = some (out.1, []) := by
  obtain ⟨rh, hrh, _, _, _, hskiph, _⟩ := insertLoop_sound name s.ulChildren hwfh
  obtain ⟨rm, hrm, _, _, _, hskipm, _⟩ := readmeUpdate_sound name s.mdEntries hwfm
  obtain ⟨_, _, _, hskipr, _⟩ := record_sound s.manifest name
  rw [runPipeline, hrh, hrm] at h
  have hout := Option.some.inj h
  subst hout
  have hskipr' : record (applyUpd (record s.manifest name) s.manifest) name
      = UpdResult.skip := hskipr
  simp only [runPipeline, hskiph, hskipm, hskipr']
  simp [applyUpd, UpdResult.isWrite, upsert_upsert]

/-- C2 witness: a concrete first run from an empty site writes all three
documents; a second run with the same name writes nothing and leaves the
state unchanged. -/
theorem c2_pipeline_idempotent_witness :
    runPipeline (fun _ => []) "x" ⟨[], [], [], []⟩
      = some (⟨[("x", [])], newChildren "x",
          [newListItem "x" listItemEndOfList], ["x"]⟩,
          [indexFile, readmeFile, repositoryFile]) ∧
    runPipeline (fun _ => []) "x"
        ⟨[("x", [])], newChildren "x", [newListItem "x" listItemEndOfList], ["x"]⟩
      = some (⟨[("x", [])], newChildren "x",
          [newListItem "x" listItemEndOfList], ["x"]⟩, []) := by
  have h1 : runPipeline (fun _ => []) "x" ⟨[], [], [], []⟩
      = some (⟨[("x", [])], newChildren "x",
          [newListItem "x" listItemEndOfList], ["x"]⟩,
          [indexFile, readmeFile, repositoryFile]) := by
    simp [runPipeline, insertLoop, readmeUpdate, readmeScan, record,
      newChildren, applyUpd, UpdResult.isWrite, upsert, listItemEndOfList]
  refine ⟨h1, ?_⟩
  exact c2_pipeline_idempotent (fun _ => []) "x" ⟨[], [], [], []⟩ _ rfl rfl h1

/-- C6 counterexample: on the parse of an empty `index.html` (which has
`html` and `body` but no `div`) the element-search loop of `index` never
exits: its guard still holds after every number of iterations, so `index`
does not terminate on every parsed document. -/
theorem c6_counterexample :
    searchDiverges ⟨["html", "body", "div", "ul"], emptyIndexDoc⟩ := by
  intro n
  match n with
  | 0 => simp [iterateSearch]
  | 1 =>
    show (iterateSearch 1 _).parts ≠ []
    rw [show iterateSearch 1 ⟨["html", "body", "div", "ul"], emptyIndexDoc⟩
        = searchStep ⟨["html", "body", "div", "ul"], emptyIndexDoc⟩ from rfl]
    rw [show searchStep ⟨["html", "body", "div", "ul"], emptyIndexDoc⟩
        = ⟨["body", "div", "ul"],
            HtmlNode.mk .elementNode "html" []
              [ HtmlNode.mk .elementNode "head" [] [],
                HtmlNode.mk .elementNode "body" [] [] ]⟩ from rfl]
    simp
  | Nat.succ (Nat.succ m) =>
    have hstuck : searchStep ⟨["div", "ul"], HtmlNode.mk .elementNode "body" [] []⟩
        = ⟨["div", "ul"], HtmlNode.mk .elementNode "body" [] []⟩ := rfl
    have h2 : iterateSearch (m + 2) ⟨["html", "body", "div", "ul"], emptyIndexDoc⟩
        = iterateSearch m ⟨["div", "ul"], HtmlNode.mk .elementNode "body" [] []⟩ := rfl
    rw [h2, iterateSearch_fix hstuck]
    simp

/-- C6 (amended): the search loop of `index` terminates — reaching the
empty-path exit state in four iterations with the located `<ul>` —
whenever the parsed document has a matching element child at every level
of the `html → body → div → ul` path; on a parsed document missing one of
these elements the loop runs forever. -/
theorem c6_search_terminates_when_path_present (document ul : HtmlNode)
    (h : pathFind ["html", "body", "div", "ul"] document = some ul) :
    iterateSearch 4 ⟨["html", "body", "div", "ul"], document⟩ = ⟨[], ul⟩ :=
  iterateSearch_of_pathFind _ document ul h

/-- C6 witness: on a document holding the full path the loop exits with
the `<ul>` in hand after four iterations. -/
theorem c6_search_terminates_witness :
    iterateSearch 4 ⟨["html", "body", "div", "ul"], goodIndexDoc⟩
      = ⟨[], HtmlNode.mk .elementNode "ul" [] []⟩ :=
  c6_search_terminates_when_path_present goodIndexDoc _ rfl

/-- C9: invoked with no name argument (`os.Args` is just the program
name), the driver logs the usage message, exits with code 1, invokes none
of the four steps, and leaves the file-system state untouched. -/
theorem c9_missing_argument (σ : Type) (prog : String)
    (inst idx rdm rcd : String → σ → Except String σ) (s : σ) :
    mainGo [prog] inst idx rdm rcd s
      = ⟨s, 1, [], ["repository: missing repository name argument"]⟩ := by
  simp [mainGo]

/-- C7: the driver invokes `instance`, `index`, `readme`, `record` in that
fixed order on the name argument; it aborts with exit code 1 at the first
failing step, invoking no later step and keeping the state produced by the
earlier successful steps (no rollback); when all four succeed it exits 0. -/
theorem c7_driver_order (σ : Type) (args : List String) (name : String)
    (inst idx rdm rcd : String → σ → Except String σ) (s : σ)
    (hlen : args.length ≠ 1) (hname : args[1]? = some name) :
    (∀ e, inst name s = .error e →
      mainGo args inst idx rdm rcd s
        = ⟨s, 1, [.instanceStep], ["repository: " ++ e]⟩) ∧
    (∀ s1 e, inst name s = .ok s1 → idx name s1 = .error e →
      mainGo args inst idx rdm rcd s
        = ⟨s1, 1, [.instanceStep, .indexStep], ["repository: " ++ e]⟩) ∧
    (∀ s1 s2 e, inst name s = .ok s1 → idx name s1 = .ok s2 →
      rdm name s2 = .error e →
      mainGo args inst idx rdm rcd s
        = ⟨s2, 1, [.instanceStep, .indexStep, .readmeStep],
            ["repository: " ++ e]⟩) ∧
    (∀ s1 s2 s3 e, inst name s = .ok s1 → idx name s1 = .ok s2 →
      rdm name s2 = .ok s3 → rcd name s3 = .error e →
      mainGo args inst idx rdm rcd s
        = ⟨s3, 1, [.instanceStep, .indexStep, .readmeStep, .recordStep],
            ["repository: " ++ e]⟩) ∧
    (∀ s1 s2 s3 s4, inst name s = .ok s1 → idx name s1 = .ok s2 →
      rdm name s2 = .ok s3 → rcd name s3 = .ok s4 →
      mainGo args inst idx rdm rcd s
        = ⟨s4, 0, [.instanceStep, .indexStep, .readmeStep, .recordStep], []⟩) := by
  refine ⟨?_, ?_, ?_, ?_, ?_⟩
  · intro e h1
    simp [mainGo, hlen, hname, h1]
  · intro s1 e h1 h2
    simp [mainGo, hlen, hname, h1, h2]
  · intro s1 s2 e h1 h2 h3
    simp [mainGo, hlen, hname, h1, h2, h3]
  · intro s1 s2 s3 e h1 h2 h3 h4
    simp [mainGo, hlen, hname, h1, h2, h3, h4]
  · intro s1 s2 s3 s4 h1 h2 h3 h4
    simp [mainGo, hlen, hname, h1, h2, h3, h4]

/-- C7 witness: with a concrete state machine whose `readme` step fails,
the driver stops after the third step with exit code 1, keeps the state
written by `instance` and `index`, and never invokes `record`. -/
theorem c7_driver_order_witness :
    mainGo ["repository", "x"]
      (fun _ n => .ok (n + 1)) (fun _ n => .ok (n + 10))
      (fun _ _ => .error "boom") (fun _ n => .ok (n + 1000)) (0 : Nat)
      = ⟨11, 1, [.instanceStep, .indexStep, .readmeStep], ["repository: boom"]⟩ :=
  (c7_driver_order Nat ["repository", "x"] "x"
      (fun _ n => .ok (n + 1)) (fun _ n => .ok (n + 10))
      (fun _ _ => .error "boom") (fun _ n => .ok (n + 1000)) 0
      (by decide) rfl).2.2.1 1 11 "boom" rfl rfl rfl

/-- C8: in each of the three updaters the backing file is written only as
the very last step, so a run that returns an error has written nothing
(the backing file is unchanged), and a run writes at most one file. -/
theorem c8_error_implies_no_write :
    (∀ (name : String) (loadRes : Except String HtmlNode)
      (renderRes writeRes : Except String Unit)
      (r : Except String Unit) (ws : List String),
      indexRun name loadRes renderRes writeRes = some (r, ws) →
        ws.length ≤ 1 ∧ ∀ e, r = .error e → ws = []) ∧
    (∀ (name : String) (loadRes : Except String MdNode)
      (writeRes : Except String Unit)
      (r : Except String Unit) (ws : List String),
      readmeRun name loadRes writeRes = some (r, ws) →
        ws.length ≤ 1 ∧ ∀ e, r = .error e → ws = []) ∧
    (∀ (name : String) (loadRes : Except String (List String))
      (marshalRes writeRes : Except String Unit),
      (recordRun name loadRes marshalRes writeRes).2.length ≤ 1 ∧
        ∀ e, (recordRun name loadRes marshalRes writeRes).1 = .error e →
          (recordRun name loadRes marshalRes writeRes).2 = []) := by
  refine ⟨?_, ?_, ?_⟩
  · intro name load render write r ws h
    cases load with
    | error e =>
      simp only [indexRun] at h
      injection Option.some.inj h with hr hws
      subst hr; subst hws
      exact ⟨by simp, fun e' _ => rfl⟩
    | ok document =>
      simp only [indexRun] at h
      cases hp : pathFind ["html", "body", "div", "ul"] document with
      | none =>
        simp only [hp] at h
        exact absurd h (by simp)
      | some ul =>
        simp only [hp] at h
        cases hil : insertLoop name (newChildren name) ul.children with
        | none =>
          simp only [hil] at h
          exact absurd h (by simp)
        | some ur =>
          simp only [hil] at h
          cases ur with
          | skip =>
            injection Option.some.inj h with hr hws
            subst hr; subst hws
            exact ⟨by simp, fun e' he' => absurd he' (by simp)⟩
          | write l =>
            cases render with
            | error e =>
              injection Option.some.inj h with hr hws
              subst hr; subst hws
              exact ⟨by simp, fun e' _ => rfl⟩
            | ok u =>
              cases write with
              | error e =>
                injection Option.some.inj h with hr hws
                subst hr; subst hws
                exact ⟨by simp, fun e' _ => rfl⟩
              | ok u' =>
                injection Option.some.inj h with hr hws
                subst hr; subst hws
                exact ⟨by simp, fun e' he' => absurd he' (by simp)⟩
  · intro name load write r ws h
    cases load with
    | error e =>
      simp only [readmeRun] at h
      injection Option.some.inj h with hr hws
      subst hr; subst hws
      exact ⟨by simp, fun e' _ => rfl⟩
    | ok document =>
      simp only [readmeRun] at h
      cases hd : readmeDocUpdate name document with
      | none =>
        simp only [hd] at h
        exact absurd h (by simp)
      | some ur =>
        simp only [hd] at h
        cases ur with
        | skip =>
          injection Option.some.inj h with hr hws
          subst hr; subst hws
          exact ⟨by simp, fun e' he' => absurd he' (by simp)⟩
        | write l =>
          cases write with
          | error e =>
            injection Option.some.inj h with hr hws
            subst hr; subst hws
            exact ⟨by simp, fun e' _ => rfl⟩
          | ok u =>
            injection Option.some.inj h with hr hws
            subst hr; subst hws
            exact ⟨by simp, fun e' he' => absurd he' (by simp)⟩
  · intro name load marshal write
    cases load with
    | error e => exact ⟨by simp [recordRun], fun e' _ => rfl⟩
    | ok repositories =>
      cases hr : record repositories name with
      | skip =>
        constructor
        · simp [recordRun, hr]
        · intro e' he'
          simp [recordRun, hr] at he'
      | write l =>
        cases marshal with
        | error e =>
          constructor
          · simp [recordRun, hr]
          · intro e' _
            simp [recordRun, hr]
        | ok u =>
          cases write with
          | error e =>
            constructor
            · simp [recordRun, hr]
            · intro e' _
              simp [recordRun, hr]
          | ok u' =>
            constructor
            · simp [recordRun, hr]
            · intro e' he'
              simp [recordRun, hr] at he'

/-- C8 witness: a successful `index` run on a well-formed document writes
exactly `index.html`, and the bound from the theorem applies to it. -/
theorem c8_error_implies_no_write_witness :
    ([indexFile] : List String).length ≤ 1 :=
  (c8_error_implies_no_write.1 "x" (.ok goodIndexDoc) (.ok ()) (.ok ())
    (.ok ()) [indexFile] rfl).1

/-- C10: under the claimed structural preconditions — every element child
of the `<ul>` is an `<li><a>text</a></li>`, and the README document's
second top-level block is a bullet list of well-formed items — every node
dereference and child-index access performed by the `index` insertion scan
and by `readme` succeeds (no nil-pointer panic, no out-of-range index):
both operations are total on such documents. -/
theorem c10_structural_safety :
    (∀ (name : String) (children : List HtmlNode), wfUl children = true →
      (insertLoop name (newChildren name) children).isSome = true) ∧
    (∀ (name : String) (document : MdNode), wfMdDoc document = true →
      (readmeDocUpdate name document).isSome = true) := by
  constructor
  · intro name children h
    obtain ⟨r, hr, _⟩ := insertLoop_sound name children (wfUl_wfH h)
    simp [hr]
  · intro name document h
    simp only [wfMdDoc, Bool.and_eq_true] at h
    obtain ⟨hc, h⟩ := h
    cases hl : document.children[1]? with
    | none => rw [hl] at h; exact absurd h (by simp)
    | some listNode =>
      rw [hl] at h
      simp only [Bool.and_eq_true] at h
      obtain ⟨hlc, hall⟩ := h
      have hwf : wfM listNode.children = true := by
        rw [wfM_iff]
        intro e he
        simp only [List.all_eq_true] at hall
        exact wfMdEntry_key (hall e he)
      obtain ⟨r, hr, _⟩ := readmeUpdate_sound name listNode.children hwf
      simp [readmeDocUpdate, MdNode.asContainer, hc, hl, hlc, hr]

/-- C10 witness: both operations succeed on concrete well-formed
documents. -/
theorem c10_structural_safety_witness :
    (insertLoop "x" (newChildren "x") []).isSome = true ∧
    (readmeDocUpdate "x" sampleMdDoc).isSome = true :=
  ⟨c10_structural_safety.1 "x" [] rfl,
    c10_structural_safety.2 "x" sampleMdDoc rfl⟩

theorem foldIndex_inv (names : List String) :
    ∀ l : List HtmlNode, wfH l = true → (keysHtml l).Pairwise (· < ·) →
      ∃ l', foldIndex names l = some l' ∧ wfH l' = true ∧
        (keysHtml l').Pairwise (· < ·) := by
  induction names with
  | nil => intro l hwf hs; exact ⟨l, rfl, hwf, hs⟩
  | cons n ns ih =>
    intro l hwf hs
    obtain ⟨r, hr, hwf', _, _, _, hsort⟩ := insertLoop_sound n l hwf
    obtain ⟨l', hl', hwf'', hs''⟩ := ih (applyUpd r l) hwf' (hsort hs)
    refine ⟨l', ?_, hwf'', hs''⟩
    have hstep : indexStep n l = some (applyUpd r l) := by
      simp [indexStep, hr]
    simp [foldIndex, hstep, hl']

theorem foldReadme_inv (names : List String) :
    ∀ entries : List MdNode, wfM entries = true →
      (keysMd entries).Pairwise (· < ·) →
      ∃ es, foldReadme names entries = some es ∧ wfM es = true ∧
        (keysMd es).Pairwise (· < ·) := by
  induction names with
  | nil => intro entries hwf hs; exact ⟨entries, rfl, hwf, hs⟩
  | cons n ns ih =>
    intro entries hwf hs
    obtain ⟨r, hr, hwf', _, _, _, hsort⟩ := readmeUpdate_sound n entries hwf
    obtain ⟨es, hes, hwf'', hs''⟩ := ih (applyUpd r entries) hwf' (hsort hs)
    refine ⟨es, ?_, hwf'', hs''⟩
    have hstep : readmeStep n entries = some (applyUpd r entries) := by
      simp [readmeStep, hr]
    simp [foldReadme, hstep, hes]

theorem foldRecord_inv (names : List String) :
    ∀ repositories : List String, repositories.Pairwise (· < ·) →
      (foldRecord names repositories).Pairwise (· < ·) := by
  induction names with
  | nil => intro repositories hs; exact hs
  | cons n ns ih =>
    intro repositories hs
    obtain ⟨_, _, _, _, hsort⟩ := record_sound repositories n
    exact ih (recordStep repositories n) (hsort hs)

/-- C1: starting from crash-free documents whose key sequences are
strictly ascending, inserting any sequence of distinct names one per
invocation (in arbitrary order) succeeds and leaves all three key
sequences — the `<ul>` entries by anchor text, the Markdown bullets by
link text, and the JSON manifest — sorted ascending with no duplicate
keys (`strictSorted` = sorted ∧ duplicate-free). -/
theorem c1_ordering_invariant (names : List String) (_hnames : names.Nodup)
    (ulChildren : List HtmlNode) (mdEntries : List MdNode)
    (manifest : List String)
    (hwfh : wfH ulChildren = true)
    (hsh : strictSorted (keysHtml ulChildren) = true)
    (hwfm : wfM mdEntries = true)
    (hsm : strictSorted (keysMd mdEntries) = true)
    (hsj : strictSorted manifest = true) :
    (foldIndex names ulChildren).map (fun l => strictSorted (keysHtml l))
        = some true ∧
    (foldReadme names mdEntries).map (fun es => strictSorted (keysMd es))
        = some true ∧
    strictSorted (foldRecord names manifest) = true := by
  obtain ⟨l', hl', _, hs'⟩ :=
    foldIndex_inv names ulChildren hwfh ((strictSorted_iff _).mp hsh)
  obtain ⟨es, hes, _, hs''⟩ :=
    foldReadme_inv names mdEntries hwfm ((strictSorted_iff _).mp hsm)
  have hr := foldRecord_inv names manifest ((strictSorted_iff _).mp hsj)
  refine ⟨?_, ?_, (strictSorted_iff _).mpr hr⟩
  · rw [hl']
    simp [(strictSorted_iff _).mpr hs']
  · rw [hes]
    simp [(strictSorted_iff _).mpr hs'']

/-- C1 witness: inserting `"b"` then `"a"` into initially empty documents
leaves all three lists strictly sorted. -/
theorem c1_ordering_invariant_witness :
    (foldIndex ["b", "a"] []).map (fun l => strictSorted (keysHtml l))
        = some true ∧
    (foldReadme ["b", "a"] []).map (fun es => strictSorted (keysMd es))
        = some true ∧
    strictSorted (foldRecord ["b", "a"] []) = true :=
  c1_ordering_invariant ["b", "a"] (by decide) [] [] [] rfl rfl rfl rfl rfl

/-- C3: boundary-marker bookkeeping of `readme`. Inserting a name that
sorts before all existing entries puts the new item first with exactly the
beginning-of-list marker, clears the previously-first item's flags, leaves
the rest untouched, and (when no other entry carried the marker) makes the
new item its sole holder. Inserting a name that sorts after all existing
entries makes the new item the sole holder of the end-of-list marker.
Inserting strictly into the middle of a sorted list disturbs no existing
marker: the beginning/end holders are exactly those of the old list. -/
theorem c3_boundary_markers (name : String) (entries : List MdNode)
    (hwf : wfM entries = true) (hne : entries ≠ []) :
    ((∀ k ∈ keysMd entries, name < k) →
      ((entries.drop 1).all
          fun e => e.listFlags &&& listItemBeginningOfList == 0) = true →
      (readmeStep name entries).map flagsMd
          = some (listItemBeginningOfList :: 0 :: flagsMd (entries.drop 1)) ∧
      (readmeStep name entries).map begHolders = some [name]) ∧
    ((∀ k ∈ keysMd entries, k < name) →
      (entries.dropLast.all
          fun e => e.listFlags &&& listItemEndOfList == 0) = true →
      (readmeStep name entries).map endHolders = some [name]) ∧
    ((keysMd entries).Pairwise (· < ·) → name ∉ keysMd entries →
      (∃ k ∈ keysMd entries, k < name) → (∃ k ∈ keysMd entries, name < k) →
      (readmeStep name entries).map begHolders = some (begHolders entries) ∧
      (readmeStep name entries).map endHolders = some (endHolders entries)) := by
  refine ⟨?_, ?_, ?_⟩
  · -- the name sorts before every existing entry
    intro hall htail
    cases entries with
    | nil => exact absurd rfl hne
    | cons e0 rest =>
      rw [wfM_cons] at hwf
      simp only [Bool.and_eq_true, Option.isSome_iff_exists] at hwf
      obtain ⟨⟨k0, hk0⟩, _⟩ := hwf
      have hlt : name < k0 :=
        hall k0 (by rw [keysMd_cons_some hk0]; exact List.mem_cons_self _ _)
      have hne0 : ¬ k0 = name := fun h => absurd (h ▸ hlt) (lt_irrefl _)
      have hscan : readmeScan name (e0 :: rest) = some (ScanRes.ins 0) := by
        simp [readmeScan, hk0, hne0, hlt]
      have hupd : readmeUpdate name (e0 :: rest)
          = some (.write (newListItem name listItemBeginningOfList
              :: clearHead (e0 :: rest))) := by
        simp [readmeUpdate, hscan]
      have hstep : readmeStep name (e0 :: rest)
          = some (newListItem name listItemBeginningOfList
              :: clearHead (e0 :: rest)) := by
        simp [readmeStep, hupd, applyUpd]
      rw [hstep]
      constructor
      · simp [flagsMd, clearHead]
      · have h16 : (listItemBeginningOfList &&& listItemBeginningOfList != 0)
            = true := by decide
        have h0 : ((0 : Nat) &&& listItemBeginningOfList != 0) = false := by
          decide
        simp only [List.drop_succ_cons, List.drop_zero, List.all_eq_true]
          at htail
        rw [show clearHead (e0 :: rest) = setFlagsTo e0 0 :: rest from rfl]
        simp [begHolders, List.filter_cons, h16, h0, listItemBeginningOfList]
        intro a ha hflag
        exact absurd (by simpa [listItemBeginningOfList] using htail a ha) hflag
  · -- the name sorts after every existing entry
    intro hall hfront
    rcases readmeScan_char name entries hwf with ⟨_, hmem⟩ | ⟨i, hs, hle, hwin, hat⟩
    · exact absurd (hall name hmem) (lt_irrefl _)
    · have hieq : i = entries.length := by
        by_contra hne'
        have hilt : i < entries.length := lt_of_le_of_ne hle hne'
        obtain ⟨e, hdrop, ki, hki, hnki⟩ := hat hilt
        have hein : e ∈ entries := by
          have : e ∈ entries.drop i := by
            rw [hdrop]; exact List.mem_cons_self _ _
          exact List.drop_subset _ _ this
        have hkin : ki ∈ keysMd entries := List.mem_filterMap.mpr ⟨e, hein, hki⟩
        exact absurd (hall ki hkin) (lt_asymm hnki)
      have hilen : ¬ i < entries.length := by omega
      have hempty : entries.isEmpty = false := by
        cases entries with
        | nil => exact absurd rfl hne
        | cons a b => rfl
      have hupd : readmeUpdate name entries
          = some (.write (clearLast entries
              ++ [newListItem name listItemEndOfList])) := by
        simp [readmeUpdate, hs, hilen, hempty]
      have hstep : readmeStep name entries
          = some (clearLast entries ++ [newListItem name listItemEndOfList]) := by
        simp [readmeStep, hupd, applyUpd]
      rw [hstep]
      have h32 : (listItemEndOfList &&& listItemEndOfList != 0) = true := by
        decide
      have h0 : ((0 : Nat) &&& listItemEndOfList != 0) = false := by decide
      have hdl : endHolders entries.dropLast = [] := endHolders_eq_nil hfront
      have hlast : endHolders [setFlagsTo (entries.getLast hne) 0,
          newListItem name listItemEndOfList] = [name] := by
        simp [endHolders, List.filter_cons, h0, h32, listItemEndOfList]
      simp [clearLast_eq entries hne, endHolders_append, hdl, hlast]
  · -- the name lands strictly in the middle of a sorted list
    intro hsorted hnot hlo hhi
    rcases readmeScan_char name entries hwf with ⟨_, hmem⟩ | ⟨i, hs, hle, hwin, hat⟩
    · exact absurd hmem hnot
    · have hlen0 : 0 < entries.length := by
        cases entries with
        | nil => exact absurd rfl hne
        | cons a b => simp
      have hi0 : ¬ i = 0 := by
        intro h0
        subst h0
        obtain ⟨e, hdrop, ki, hki, hnki⟩ := hat hlen0
        rw [List.drop_zero] at hdrop
        have hkeys : keysMd entries = ki :: keysMd (entries.drop 1) := by
          conv_lhs => rw [hdrop]
          exact keysMd_cons_some hki
        obtain ⟨k, hk, hklt⟩ := hlo
        rw [hkeys] at hk hsorted
        rcases List.mem_cons.mp hk with h | h
        · exact absurd (h ▸ hklt) (lt_asymm hnki)
        · exact absurd hklt
            (lt_asymm (lt_trans hnki (List.rel_of_pairwise_cons hsorted h)))
      have hilt : i < entries.length := by
        rcases lt_or_eq_of_le hle with h | h
        · exact h
        · exfalso
          obtain ⟨k, hk, hklt⟩ := hhi
          rw [h, List.take_length] at hwin
          exact absurd hklt (lt_asymm (hwin k hk))
      have hupd : readmeUpdate name entries
          = some (.write (entries.take i
              ++ newListItem name 0 :: entries.drop i)) := by
        simp [readmeUpdate, hs, hilt, hi0]
      have hstep : readmeStep name entries
          = some (entries.take i ++ newListItem name 0 :: entries.drop i) := by
        simp [readmeStep, hupd, applyUpd]
      rw [hstep]
      have h0b : ((0 : Nat) &&& listItemBeginningOfList != 0) = false := by
        decide
      have h0e : ((0 : Nat) &&& listItemEndOfList != 0) = false := by decide
      constructor
      · have hmid : begHolders (entries.take i
            ++ newListItem name 0 :: entries.drop i) = begHolders entries := by
          have h1 : begHolders (newListItem name 0 :: entries.drop i)
              = begHolders (entries.drop i) := by
            simp [begHolders, List.filter_cons, h0b]
          rw [begHolders_append, h1, ← begHolders_append,
            List.take_append_drop]
        simp [hmid]
      · have hmid : endHolders (entries.take i
            ++ newListItem name 0 :: entries.drop i) = endHolders entries := by
          have h1 : endHolders (newListItem name 0 :: entries.drop i)
              = endHolders (entries.drop i) := by
            simp [endHolders, List.filter_cons, h0e]
          rw [endHolders_append, h1, ← endHolders_append,
            List.take_append_drop]
        simp [hmid]

/-- C3 witness (scenario D): inserting `"alpha"` into the one-entry list
`- [beta](/beta)` (whose item carries both markers, as parsed) yields two
entries with `alpha` first holding exactly the beginning-of-list marker,
`beta`'s flags cleared, and `alpha` the sole beginning-of-list holder. -/
theorem c3_boundary_markers_witness :
    (readmeStep "alpha" [newListItem "beta" 48]).map flagsMd
        = some [listItemBeginningOfList, 0] ∧
    (readmeStep "alpha" [newListItem "beta" 48]).map begHolders
        = some ["alpha"] :=
  (c3_boundary_markers "alpha" [newListItem "beta" 48] rfl
      (by simp)).1
    (by
      intro k hk
      rw [show keysMd [newListItem "beta" 48] = ["beta"] from rfl] at hk
      rw [List.mem_singleton.mp hk]
      norm_num
      decide)
    rfl

/-- Concrete evaluation of `slices.Sort`: the sorted permutation of the
input is unique, so any sort law fixes the output list. -/
theorem mergeSort_eval {l sortedOut : List String}
    (hperm : List.Perm l sortedOut) (hs : sortedOut.Pairwise (· ≤ ·)) :
    List.mergeSort l goLe = sortedOut := by
  refine List.eq_of_perm_of_sorted
    ((List.mergeSort_perm l goLe).trans hperm) ?_ hs
  have h := List.sorted_mergeSort goLe_trans goLe_total l
  exact h.imp fun hab => by simpa [goLe] using hab

/-- C4: `record` skips (no write) when the name is already present and
otherwise writes the input plus the name, sorted ascending; in
particular: `[] + "alpha"` gives `["alpha"]`, `["alpha","gamma"] + "beta"`
gives `["alpha","beta","gamma"]`, and `["alpha"] + "alpha"` skips. -/
theorem c4_record_contract :
    (∀ (l : List String) (name : String), name ∈ l →
      record l name = UpdResult.skip) ∧
    (∀ (l : List String) (name : String), name ∉ l →
      (record l name).isWrite = true ∧
      List.Perm (recordStep l name) (l ++ [name]) ∧
      (recordStep l name).Pairwise (· ≤ ·)) ∧
    record [] "alpha" = UpdResult.write ["alpha"] ∧
    record ["alpha", "gamma"] "beta"
        = UpdResult.write ["alpha", "beta", "gamma"] ∧
    record ["alpha"] "alpha" = UpdResult.skip := by
  refine ⟨?_, ?_, ?_, ?_, ?_⟩
  · intro l name h
    exact (record_sound l name).1 h
  · intro l name h
    obtain ⟨_, h2, _, _, _⟩ := record_sound l name
    obtain ⟨hw, hperm, hsorted⟩ := h2 h
    have hstep : recordStep l name = List.mergeSort (l ++ [name]) goLe := by
      simp [recordStep, hw, applyUpd]
    refine ⟨by simp [hw, UpdResult.isWrite], ?_, ?_⟩
    · rw [hstep]; exact hperm
    · rw [hstep]; exact hsorted
  · simp [record]
  · have hs : (["alpha", "beta", "gamma"] : List String).Pairwise (· ≤ ·) := by
      refine List.Pairwise.cons ?_ (List.Pairwise.cons ?_ (List.pairwise_singleton _ _))
      · intro b hb
        rcases List.mem_cons.mp hb with h | h
        · rw [h]; norm_num; decide
        · rw [List.mem_singleton.mp h]; norm_num; decide
      · intro b hb
        rw [List.mem_singleton.mp hb]; norm_num; decide
    have hms : List.mergeSort ["alpha", "gamma", "beta"] goLe
        = ["alpha", "beta", "gamma"] :=
      mergeSort_eval (List.Perm.cons _ (List.Perm.swap _ _ _)) hs
    simp [record, hms]
  · simp [record]

/-- C4 witness: the no-op branch fires on a concrete present name. -/
theorem c4_record_contract_witness :
    record ["x", "y"] "y" = UpdResult.skip :=
  c4_record_contract.1 ["x", "y"] "y" (by simp)

/-- C5 counterexample: on a well-formed manifest that already contains a
duplicate, `record` rewrites it sorted but *not* deduplicated —
`["b","b"]` plus `"a"` is written as `["a","b","b"]`, which has a
duplicate — refuting the claim that the rewritten array is always
deduplicated. -/
theorem c5_counterexample :
    record ["b", "b"] "a" = UpdResult.write ["a", "b", "b"] ∧
    ¬ (["a", "b", "b"] : List String).Nodup := by
  constructor
  · have hperm : List.Perm ["b", "b", "a"] ["a", "b", "b"] :=
      (List.Perm.cons _ (List.Perm.swap _ _ _)).trans (List.Perm.swap _ _ _)
    have hs : (["a", "b", "b"] : List String).Pairwise (· ≤ ·) := by
      refine List.Pairwise.cons ?_ (List.Pairwise.cons ?_ (List.pairwise_singleton _ _))
      · intro b hb
        rcases List.mem_cons.mp hb with h | h
        · rw [h]; norm_num; decide
        · rw [List.mem_singleton.mp h]; norm_num; decide
      · intro b hb
        rw [List.mem_singleton.mp hb]
    have hms := mergeSort_eval hperm hs
    simp [record, hms]
  · simp

/-- C5 (amended): when the name is absent `record` rewrites the manifest
sorted ascending, and the result is deduplicated provided the input array
was duplicate-free; when the name is present the file is not rewritten at
all, so pre-existing duplicates (or disorder) are preserved, never
removed. -/
theorem c5_record_sorted_amended (l : List String) (name : String) :
    (name ∉ l →
      (record l name).isWrite = true ∧
      (recordStep l name).Pairwise (· ≤ ·) ∧
      (l.Nodup → (recordStep l name).Nodup)) ∧
    (name ∈ l → record l name = UpdResult.skip) := by
  obtain ⟨h1, h2, _, _, _⟩ := record_sound l name
  constructor
  · intro h
    obtain ⟨hw, hperm, hsorted⟩ := h2 h
    have hstep : recordStep l name = List.mergeSort (l ++ [name]) goLe := by
      simp [recordStep, hw, applyUpd]
    refine ⟨by simp [hw, UpdResult.isWrite], by rw [hstep]; exact hsorted, ?_⟩
    intro hnd
    rw [hstep]
    refine hperm.nodup_iff.mpr ?_
    rw [List.nodup_append]
    refine ⟨hnd, List.nodup_singleton _, ?_⟩
    intro a ha hb
    exact h (List.mem_singleton.mp hb ▸ ha)
  · exact h1

/-- C5 amended-claim witness: on the duplicate-carrying input the write
happens and is sorted (though not deduplicated). -/
theorem c5_record_sorted_amended_witness :
    (record ["b", "b"] "a").isWrite = true ∧
    (recordStep ["b", "b"] "a").Pairwise (· ≤ ·) :=
  ⟨((c5_record_sorted_amended ["b", "b"] "a").1 (by simp)).1,
    ((c5_record_sorted_amended ["b", "b"] "a").1 (by simp)).2.1⟩

end Repo

